import Mathlib

/-!
Shallow embedding of the filesystem layer implemented in `src/up_fs.cpp`
(project libup).  Byte strings are modelled as `List Char` (every byte the
code manipulates is mapped to the codepoint of equal value, so codepoints
below 256 model bytes faithfully, and `std::string` comparison — which
compares `unsigned char` values — agrees with `Char` comparison); machine
integers are modelled as `Nat`; operations that can raise an exception
return `Option`, with `none` standing for the raising path (`UP_RAISE`).
The definitions follow the C++ source function by function; the theorems at
the end of the file settle the specification claims.
-/

/- ### Pathname splitting and normalization (`pathname_split`, `pathname_normalize`) -/

/-- The segment filter applied by the callback wrapper `invoke` inside
`pathname_split`: a segment is forwarded iff it is non-empty and not the
single-dot segment (`first != last && (first + 1 != last || *first != '.')`). -/
def keepSegment (seg : List Char) : Bool :=
  !seg.isEmpty && seg != ['.']

/-- `pathname_split` from up_fs.cpp: the loop splits the input at every `'/'`
(the piece before each separator plus the final piece), and forwards exactly
the segments accepted by `keepSegment`.  Splitting at every separator is
`List.splitOnP` with the slash predicate. -/
def pathname_split (s : List Char) : List (List Char) :=
  (s.splitOnP (fun c => c == '/')).filter keepSegment

/-- The rejoin loop of `pathname_normalize`: `result` starts empty,
`separator` starts as the absolute flag, and every segment is appended
preceded by `'/'` iff `separator` is currently set; after the first segment
`separator` is always set. -/
def joinLoop : List (List Char) → Bool → List Char
  | [], _ => []
  | seg :: rest, sep => (if sep then ['/'] else []) ++ seg ++ joinLoop rest true

/-- `pathname_normalize` from up_fs.cpp: the input is absolute iff
`pathname.compare(0, 1, "/") == 0`, i.e. iff its first character is `'/'`;
the filtered segments are rejoined by `joinLoop`; an empty result is replaced
by `"/"` for absolute input and `"."` for relative input. -/
def pathname_normalize (s : List Char) : List Char :=
  let absolute : Bool := s.take 1 == ['/']
  let r := joinLoop (pathname_split s) absolute
  if r.isEmpty then [if absolute then '/' else '.'] else r

/- ### Proc pathname escape decoding (`unmangle_pathname_from_proc`) -/

/-- Numeric value of a digit character (`*p - '0'` in the C++ source). -/
def digitVal (c : Char) : Nat :=
  c.toNat - '0'.toNat

/-- `unmangle_pathname_from_proc` from up_fs.cpp.  Every byte other than a
backslash is copied; a backslash must be followed by at least three further
bytes (`last - p < 4` raises), the first in `'0'..'3'` and the next two in
`'0'..'7'`; the four-byte escape is replaced by the byte with the octal
value `((d1 << 3) + d2 << 3) + d3`.  `none` models the raised decode error. -/
def unmangle_pathname_from_proc : List Char → Option (List Char)
  | [] => some []
  | c :: rest =>
    if c ≠ '\\' then
      (unmangle_pathname_from_proc rest).map (fun r => c :: r)
    else
      match rest with
      | d1 :: d2 :: d3 :: rest' =>
        if d1 < '0' ∨ '3' < d1 then none
        else if d2 < '0' ∨ '7' < d2 then none
        else if d3 < '0' ∨ '7' < d3 then none
        else
          (unmangle_pathname_from_proc rest').map
            (fun r => Char.ofNat ((((digitVal d1 <<< 3) + digitVal d2) <<< 3) + digitVal d3) :: r)
      | _ => none

/- ### Mount table parsing (`parse_mountinfo`) -/

/-- The characters accepted by C `isspace` in the POSIX locale, as used by
`sscanf` whitespace matching. -/
def isCSpace (c : Char) : Bool :=
  c == ' ' || c == '\t' || c == '\n' || c == '\x0b' || c == '\x0c' || c == '\r'

/-- Consume an optional leading sign character (`+` or `-`). -/
def dropSign : List Char → List Char
  | c :: r => if c == '+' || c == '-' then r else c :: r
  | [] => []

/-- The `%*d` directive of `sscanf`: skip whitespace, an optional sign and a
non-empty run of decimal digits; `none` on matching failure.  Returns the
unconsumed input. -/
def scanSkipInt (s : List Char) : Option (List Char) :=
  let s2 := dropSign (s.dropWhile isCSpace)
  if (s2.takeWhile Char.isDigit).isEmpty then none
  else some (s2.dropWhile Char.isDigit)

/-- Value of a run of decimal digits. -/
def digitsToNat (ds : List Char) : Nat :=
  ds.foldl (fun acc c => acc * 10 + digitVal c) 0

/-- Split an optional leading sign character off, recording a minus. -/
def splitSign : List Char → Bool × List Char
  | c :: r =>
    if c == '-' then (true, r) else if c == '+' then (false, r) else (false, c :: r)
  | [] => (false, [])

/-- The `%u` directive of `sscanf`: skip whitespace, an optional sign and a
non-empty digit run; the value is reduced modulo `2 ^ 32` (`unsigned int`,
with the `strtoul` negation rule for a leading minus). -/
def scanUInt (s : List Char) : Option (Nat × List Char) :=
  let signAndRest := splitSign (s.dropWhile isCSpace)
  let ds := signAndRest.2.takeWhile Char.isDigit
  if ds.isEmpty then none
  else
    let m := digitsToNat ds % 2 ^ 32
    some ((if signAndRest.1 then (2 ^ 32 - m) % 2 ^ 32 else m),
      signAndRest.2.dropWhile Char.isDigit)

/-- `sscanf(first, "%*d %*d %u:%u%n", &major, &minor, &pos)` as called by
`parse_mountinfo`: two skipped integers, `major`, a literal `':'`, `minor`,
and the number of consumed characters (`%n`).  The call is accepted iff both
`%u` conversions succeed (`rv` is 2, or 3 where `%n` is counted). -/
def scanMajMin (line : List Char) : Option (Nat × Nat × Nat) := do
  let s1 ← scanSkipInt line
  let s2 ← scanSkipInt s1
  let (major, s3) ← scanUInt s2
  match s3 with
  | ':' :: s4 =>
    let (minor, s5) ← scanUInt s4
    some (major, minor, line.length - s5.length)
  | _ => none

/-- glibc `makedev(major, minor)`. -/
def makedev (major minor : Nat) : Nat :=
  ((major &&& 0xfffff000) <<< 32) ||| ((major &&& 0xfff) <<< 8) |||
    ((minor &&& 0xffffff00) <<< 12) ||| (minor &&& 0xff)

/-- `parse_mountinfo` from up_fs.cpp.  The loop runs while a `'\n'` remains
in the buffer.  Each iteration takes the line up to the `'\n'`, overwrites
that `'\n'` with `'\x00'` (so `sscanf` stops there), runs `scanMajMin`, then
— starting one character past the consumed prefix — searches for the next
two spaces with `std::find(…, last, ' ')`, where `last` is the end of the
WHOLE buffer, not of the line; the token between those two spaces is decoded
with `unmangle_pathname_from_proc` and recorded with `makedev major minor`.
`none` models a raised `fs-mountinfo-error` (or a decode error). -/
def parse_mountinfo (buf : List Char) : Option (List (Nat × List Char)) :=
  if hmem : '\n' ∈ buf then
    let line := buf.takeWhile (fun c => c != '\n')
    let rest := (buf.dropWhile (fun c => c != '\n')).tail
    match scanMajMin line with
    | none => none
    | some (major, minor, pos) =>
      let search := line ++ '\x00' :: rest
      match (search.drop (pos + 1)).dropWhile (fun c => c != ' ') with
      | [] => none
      | _ :: afterR =>
        if afterR.all (fun c => c != ' ') then none
        else
          match unmangle_pathname_from_proc (afterR.takeWhile (fun c => c != ' ')) with
          | none => none
          | some decoded =>
            match parse_mountinfo rest with
            | none => none
            | some ms => some ((makedev major minor, decoded) :: ms)
  else some []
termination_by buf.length
decreasing_by
  have h1 : (buf.dropWhile (fun c => c != '\n')).length ≤ buf.length :=
    (List.dropWhile_suffix _).length_le
  have h2 : buf.dropWhile (fun c => c != '\n') ≠ [] := by
    intro e
    have := List.dropWhile_eq_nil_iff.mp e '\n' hmem
    simp at this
  have h3 : 0 < (buf.dropWhile (fun c => c != '\n')).length :=
    List.length_pos.mpr h2
  rw [List.length_tail]
  omega

/- ### Mount root collection and lookup (`origin::impl::location`) -/

/-- Lexicographic comparison of byte strings — `std::string operator<`
(`char_traits<char>` compares bytes as `unsigned char`, which agrees with
codepoint order on our byte-valued characters). -/
def listCharLt : List Char → List Char → Bool
  | [], [] => false
  | [], _ :: _ => true
  | _ :: _, [] => false
  | a :: as, b :: bs =>
    if a < b then true
    else if b < a then false
    else listCharLt as bs

/-- The comparator passed to `std::sort` in `location()`:
`forward_as_tuple(lhs.first, lhs.second.size(), lhs.second) <
 forward_as_tuple(rhs.first, rhs.second.size(), rhs.second)`, i.e.
lexicographic on (root inode, path length, path text). -/
def root_lt (a b : Nat × List Char) : Bool :=
  if a.1 < b.1 then true
  else if b.1 < a.1 then false
  else if a.2.length < b.2.length then true
  else if b.2.length < a.2.length then false
  else listCharLt a.2 b.2

/-- The ordering `std::sort` establishes with strict comparator `root_lt`:
consecutive elements `a, b` satisfy `¬ root_lt b a`. -/
def root_le (a b : Nat × List Char) : Prop :=
  root_lt b a = false

instance : DecidableRel root_le := fun a b => by
  unfold root_le
  infer_instance

/-- The candidate collection loop of `location()`: every parsed mount whose
device equals the target directory's device is recorded as
(inode of the mount root as reported by `fstatat`, decoded mount path).
`statIno` abstracts the `fstatat` environment: the inode each pathname
resolves to (a failing `fstatat` aborts `location()` before any result and
is outside the claims settled here). -/
def collect_roots (mounts : List (Nat × List Char)) (dev : Nat)
    (statIno : List Char → Nat) : List (Nat × List Char) :=
  (mounts.filter (fun m => m.1 == dev)).map (fun m => (statIno m.2, m.2))

/-- The `std::sort` call in `location()`.  The comparator is antisymmetric
(proved below), so every correctly sorted arrangement of the candidate list
is the same list; insertion sort therefore computes exactly the list
`std::sort` produces. -/
def sort_roots (roots : List (Nat × List Char)) : List (Nat × List Char) :=
  roots.insertionSort root_le

/-- The mount-root fast path of `origin::impl::location` for a resolved
origin, with the parent-directory walk abstracted as the continuation
`walk`: the candidate roots are collected and sorted, then
`std::partition_point` (lower bound by inode — on the sorted list this is
`dropWhile (·.1 < ino)`) looks up the directory's own inode; on an exact hit
the decoded path is returned normalized, otherwise the upward walk runs. -/
def location_resolved (mounts : List (Nat × List Char)) (dev ino : Nat)
    (statIno : List Char → Nat) (walk : Unit → Option (List Char)) : Option (List Char) :=
  let roots := sort_roots (collect_roots mounts dev statIno)
  match roots.dropWhile (fun r => decide (r.1 < ino)) with
  | r :: _ => if r.1 = ino then some (pathname_normalize r.2) else walk ()
  | [] => walk ()

/- ### Directory scanning (`map_dirent_type_to_kind`, `scan_directory`) -/

/-- `up_fs::fs::kind`. -/
inductive kind where
  | block_device
  | character_device
  | directory
  | named_pipe
  | symbolic_link
  | regular_file
  | socket
  | unknown
  deriving DecidableEq

/-- `dirent` type codes (linux `DT_*` constants). -/
def DT_UNKNOWN : Nat := 0
def DT_FIFO : Nat := 1
def DT_CHR : Nat := 2
def DT_DIR : Nat := 4
def DT_BLK : Nat := 6
def DT_REG : Nat := 8
def DT_LNK : Nat := 10
def DT_SOCK : Nat := 12

/-- `map_dirent_type_to_kind` from up_fs.cpp; `none` models the raised
`fs-bad-type-error` of the `default` switch case. -/
def map_dirent_type_to_kind (t : Nat) : Option kind :=
  if t = DT_BLK then some kind.block_device
  else if t = DT_CHR then some kind.character_device
  else if t = DT_DIR then some kind.directory
  else if t = DT_FIFO then some kind.named_pipe
  else if t = DT_LNK then some kind.symbolic_link
  else if t = DT_REG then some kind.regular_file
  else if t = DT_SOCK then some kind.socket
  else if t = DT_UNKNOWN then some kind.unknown
  else none

/-- One raw entry as returned by `readdir_r`: inode, name, type code. -/
structure raw_dirent where
  ino : Nat
  dname : List Char
  dtype : Nat
  deriving DecidableEq

/-- `up_fs::fs::directory_entry`. -/
structure directory_entry where
  ino : Nat
  dname : List Char
  dkind : kind
  deriving DecidableEq

/-- The `readdir_r` loop of `scan_directory` (visitor form) from up_fs.cpp,
over the sequence of raw entries the OS produces.  The C++ visitor may carry
state (the collecting form pushes onto a vector), so the visitor is modelled
with an explicit state `σ`.  Entries named `"."` and `".."` are skipped; any
other entry's type code is mapped by `map_dirent_type_to_kind` (`none`
models the raised error); the loop returns `true` as soon as the visitor
does, without reading further entries, and `false` at end of directory. -/
def scan_directory_core {σ : Type} : List raw_dirent → σ → (σ → directory_entry → σ × Bool) → Option (σ × Bool)
  | [], s, _ => some (s, false)
  | r :: rest, s, visit =>
    if r.dname = ['.'] ∨ r.dname = ['.', '.'] then
      scan_directory_core rest s visit
    else
      match map_dirent_type_to_kind r.dtype with
      | none => none
      | some k =>
        let step := visit s ⟨r.ino, r.dname, k⟩
        if step.2 then some (step.1, true) else scan_directory_core rest step.1 visit

/-- The visitor form of `scan_directory`: stateless visitor, result is the
early-exit flag. -/
def scan_directory_visit (raws : List raw_dirent) (visitor : directory_entry → Bool) : Option Bool :=
  (scan_directory_core raws () (fun _ e => ((), visitor e))).map (fun p => p.2)

/-- The collecting form of `scan_directory`: calls the visitor form with a
visitor that pushes every entry and returns `false`. -/
def scan_directory_collect (raws : List raw_dirent) : Option (List directory_entry) :=
  (scan_directory_core raws [] (fun acc e => (acc ++ [e], false))).map (fun p => p.1)

/- ### File open flags and creation mode (`file::file`) -/

def O_RDONLY : Nat := 0
def O_WRONLY : Nat := 1
def O_RDWR : Nat := 2
def O_ACCMODE : Nat := 3
def O_CREAT : Nat := 0o100
def O_EXCL : Nat := 0o200
def O_TRUNC : Nat := 0o1000
def O_APPEND : Nat := 0o2000
def O_DIRECTORY : Nat := 0o200000
def O_TMPFILE : Nat := 0o20000000 ||| O_DIRECTORY

def S_IRUSR : Nat := 0o400
def S_IWUSR : Nat := 0o200
def S_IXUSR : Nat := 0o100
def S_IRGRP : Nat := 0o40
def S_IWGRP : Nat := 0o20
def S_IXGRP : Nat := 0o10
def S_IROTH : Nat := 0o4
def S_IWOTH : Nat := 0o2
def S_IXOTH : Nat := 0o1

/-- The declarative option set consumed by the `file` constructor
(`up_fs::fs::file::option`); `options.all(a, b, …)` is modelled as the
conjunction of the corresponding fields. -/
structure file_options where
  read : Bool
  write : Bool
  append : Bool
  create : Bool
  exclusive : Bool
  tmpfile : Bool
  truncate : Bool
  executable : Bool
  group : Bool
  others : Bool
  deriving DecidableEq

/-- The open-flag derivation of the `file::file` constructor. -/
def file_flags (o : file_options) : Nat :=
  let flags : Nat := 0
  let flags := if o.read && o.write then flags ||| O_RDWR
    else if o.read then flags ||| O_RDONLY
    else if o.write then flags ||| O_WRONLY
    else flags
  let flags := if o.append then flags ||| O_APPEND else flags
  let flags := if o.create then flags ||| O_CREAT else flags
  let flags := if o.exclusive then flags ||| O_EXCL else flags
  let flags := if o.tmpfile then flags ||| O_TMPFILE else flags
  let flags := if o.truncate then flags ||| O_TRUNC else flags
  flags

/-- The creation-mode derivation of the `file::file` constructor. -/
def file_mode (o : file_options) : Nat :=
  let mode := S_IRUSR ||| S_IWUSR
  let mode := if o.executable then mode ||| S_IXUSR else mode
  let mode := if o.group then mode ||| S_IRGRP ||| S_IWGRP else mode
  let mode := if o.group && o.executable then mode ||| S_IXGRP else mode
  let mode := if o.others then mode ||| S_IROTH ||| S_IWOTH else mode
  let mode := if o.others && o.executable then mode ||| S_IXOTH else mode
  mode

/- ### Advisory locking (`file::lock::impl`) -/

def LOCK_SH : Nat := 1
def LOCK_EX : Nat := 2
def LOCK_NB : Nat := 4
def LOCK_UN : Nat := 8

/-- The `flock` operation derived by the `lock::impl` constructor:
`(_exclusive ? LOCK_EX : LOCK_SH) | (blocking ? 0 : LOCK_NB)`. -/
def lock_operation (exclusive blocking : Bool) : Nat :=
  (if exclusive then LOCK_EX else LOCK_SH) ||| (if blocking then 0 else LOCK_NB)

/-- One OS response to a `::flock` attempt. -/
inductive flock_result where
  | ok
  | eintr
  | ewouldblock
  | err (code : Nat)
  deriving DecidableEq

/-- Outcome of `lock::impl::perform`: normal return, the distinguished
`up_fs::fs::locked_file` condition, or the generic `runtime` filesystem
error with the OS error code. -/
inductive lock_outcome where
  | acquired
  | already_locked
  | failed (code : Nat)
  deriving DecidableEq

/-- `lock::impl::perform` from up_fs.cpp over the sequence of OS responses:
`::flock` is retried while it fails with `EINTR`; a final `EWOULDBLOCK`
raises the distinguished `locked_file` condition; any other failure raises
the generic error via `check`; success returns normally.  `none` models a
response sequence exhausted while still interrupted. -/
def lock_perform : List flock_result → Option lock_outcome
  | [] => none
  | flock_result.eintr :: rest => lock_perform rest
  | flock_result.ok :: _ => some lock_outcome.acquired
  | flock_result.ewouldblock :: _ => some lock_outcome.already_locked
  | flock_result.err e :: _ => some (lock_outcome.failed e)

/-- The first non-`EINTR` response, i.e. the one `perform` acts on. -/
def first_response (rs : List flock_result) : Option flock_result :=
  (rs.dropWhile (fun r => r = flock_result.eintr)).head?

/- ### Path joining (`path::impl::joined`) -/

/-- An origin is either the working-directory sentinel (no handle, `dir_fd`
is `AT_FDCWD`) or a resolved directory holding an open descriptor. -/
inductive origin_rep where
  | working
  | resolved (fd : Nat)
  deriving DecidableEq

/-- `up_fs::fs::path::impl`: origin, pathname text, follow flag. -/
structure path_rep where
  org : origin_rep
  pathname : List Char
  follow : Bool
  deriving DecidableEq

/-- `path::impl::joined` from up_fs.cpp: a pathname starting with `'/'`
replaces the origin by `_origin->working()` — the handle-less origin whose
directory descriptor is the `AT_FDCWD` sentinel; since the stored pathname
is then absolute, every later `openat` resolves it from the process root —
and keeps the name unchanged; otherwise the name is appended to the current
pathname after a `'/'` and the concatenation is normalized.  The receiver is
immutable (`joined` builds a new `impl`), which the functional reading keeps
by construction. -/
def path_joined (p : path_rep) (pathname : List Char) : path_rep :=
  if pathname.take 1 == ['/'] then
    { org := origin_rep.working, pathname := pathname, follow := p.follow }
  else
    { org := p.org, pathname := pathname_normalize (p.pathname ++ '/' :: pathname),
      follow := p.follow }

/- ### Handle lifecycle (`handle`) -/

/-- The operations of the C++ `handle` class.  Handle objects are named by
`Nat` identifiers; each descriptor placed into a handle by the
`handle(int fd)` constructor is a fresh token.  The copy constructor and
copy assignment are deleted in the source, so the alphabet has no copy:
the class is move-only, and a handle owns at most one descriptor
(its single `int _fd` field, modelled as `Option Nat`). -/
inductive hop where
  | mkEmpty (h : Nat)
  | mkFd (h : Nat)
  | moveCtor (dst src : Nat)
  | moveAssign (dst src : Nat)
  | swapOp (a b : Nat)
  | release (h : Nat)
  | destroy (h : Nat)
  deriving DecidableEq

/-- Program state for handle traces: the live handle objects with the token
they own (if any), the tokens passed to `::close`, the tokens handed back by
`release()`, and the next fresh token. -/
structure hstate where
  handles : List (Nat × Option Nat)
  closed : List Nat
  released : List Nat
  next : Nat
  deriving DecidableEq

def hkeys (l : List (Nat × Option Nat)) : List Nat :=
  l.map (fun p => p.1)

/-- Value of the first entry with the given key. -/
def hlookup : List (Nat × Option Nat) → Nat → Option (Option Nat)
  | [], _ => none
  | p :: rest, h => if p.1 = h then some p.2 else hlookup rest h

/-- Replace the value of the first entry with the given key. -/
def hset : List (Nat × Option Nat) → Nat → Option Nat → List (Nat × Option Nat)
  | [], _, _ => []
  | p :: rest, h, v => if p.1 = h then (h, v) :: rest else p :: hset rest h v

/-- Remove the first entry with the given key. -/
def herase : List (Nat × Option Nat) → Nat → List (Nat × Option Nat)
  | [], _ => []
  | p :: rest, h => if p.1 = h then rest else p :: herase rest h

def initState : hstate :=
  { handles := [], closed := [], released := [], next := 0 }

/-- One step of the handle lifecycle, following the member functions of the
C++ `handle` class: `mkEmpty` is `handle()` (or `handle(-1)`, which the
destructor also treats as empty); `mkFd` is `handle(fd)` with an open
descriptor; `moveCtor` is the move constructor (`rhs._fd = -1` afterwards);
`moveAssign` is move assignment — `swap(rhs)` followed by `rhs.close()`, so
the descriptor previously owned by the target is closed; `swapOp` is
`swap`; `release` is `release()` (`std::exchange(_fd, -1)`, no close);
`destroy` is the destructor, which closes a non-empty handle. -/
def hstep (st : hstate) : hop → hstate
  | hop.mkEmpty h => { st with handles := (h, none) :: st.handles }
  | hop.mkFd h =>
    { st with handles := (h, some st.next) :: st.handles, next := st.next + 1 }
  | hop.moveCtor dst src =>
    let t := (hlookup st.handles src).join
    { st with handles := (dst, t) :: hset st.handles src none }
  | hop.moveAssign dst src =>
    let tdst := (hlookup st.handles dst).join
    let tsrc := (hlookup st.handles src).join
    let swapped := hset (hset st.handles dst tsrc) src tdst
    let tcur := (hlookup swapped src).join
    { st with handles := hset swapped src none,
              closed := match tcur with
                | some t => st.closed ++ [t]
                | none => st.closed }
  | hop.swapOp a b =>
    let ta := (hlookup st.handles a).join
    let tb := (hlookup st.handles b).join
    { st with handles := hset (hset st.handles a tb) b ta }
  | hop.release h =>
    { st with handles := hset st.handles h none,
              released := match (hlookup st.handles h).join with
                | some t => st.released ++ [t]
                | none => st.released }
  | hop.destroy h =>
    { st with handles := herase st.handles h,
              closed := match (hlookup st.handles h).join with
                | some t => st.closed ++ [t]
                | none => st.closed }

/-- Validity of one operation: constructions use a fresh object identifier,
every other operation acts on live objects (self-move-assignment and
self-swap are allowed, as in C++). -/
def legalOp (st : hstate) : hop → Prop
  | hop.mkEmpty h => h ∉ hkeys st.handles
  | hop.mkFd h => h ∉ hkeys st.handles
  | hop.moveCtor dst src => dst ∉ hkeys st.handles ∧ src ∈ hkeys st.handles ∧ dst ≠ src
  | hop.moveAssign dst src => dst ∈ hkeys st.handles ∧ src ∈ hkeys st.handles
  | hop.swapOp a b => a ∈ hkeys st.handles ∧ b ∈ hkeys st.handles
  | hop.release h => h ∈ hkeys st.handles
  | hop.destroy h => h ∈ hkeys st.handles

def hrun (st : hstate) (ops : List hop) : hstate :=
  ops.foldl hstep st

def legalTrace : hstate → List hop → Prop
  | _, [] => True
  | st, op :: ops => legalOp st op ∧ legalTrace (hstep st op) ops

/-- How many handles currently own the descriptor token `t`. -/
def countH (l : List (Nat × Option Nat)) (t : Nat) : Nat :=
  (l.filter (fun p => p.2 = some t)).length

/-- How many times the descriptor token `t` occurs in the state: owned by a
handle, recorded as closed, or recorded as released. -/
def tokCount (st : hstate) (t : Nat) : Nat :=
  countH st.handles t + st.closed.count t + st.released.count t

/-- The ownership invariant: every introduced token occurs exactly once
(owned, closed or released), every other token not at all. -/
def hinv (st : hstate) : Prop :=
  (∀ t, t < st.next → tokCount st t = 1) ∧ (∀ t, st.next ≤ t → tokCount st t = 0)

/- ### Helper lemmas: pathname normalization -/

theorem joinLoop_true_eq (t : List (List Char)) :
    joinLoop t true = if t.isEmpty then [] else '/' :: joinLoop t false := by
  cases t <;> simp [joinLoop]

theorem joinLoop_false_eq_intercalate (segs : List (List Char)) :
    joinLoop segs false = List.intercalate ['/'] segs := by
  induction segs with
  | nil => simp [joinLoop, List.intercalate]
  | cons h t ih =>
    cases t with
    | nil => simp [joinLoop, List.intercalate]
    | cons h' t' =>
      have step : joinLoop (h :: h' :: t') false = h ++ '/' :: joinLoop (h' :: t') false := by
        simp [joinLoop]
      rw [step, ih]
      simp [List.intercalate, List.intersperse_cons_cons]

theorem pathname_normalize_eq (s : List Char) :
    pathname_normalize s =
      (if (pathname_split s).isEmpty then [if s.take 1 == ['/'] then '/' else '.']
       else ((if s.take 1 == ['/'] then ['/'] else [])
          ++ List.intercalate ['/'] (pathname_split s))) := by
  unfold pathname_normalize
  cases hsegs : pathname_split s with
  | nil => simp [joinLoop]
  | cons h t =>
    have hk : keepSegment h = true := by
      have hmem : h ∈ pathname_split s := by
        rw [hsegs]; exact List.mem_cons_self _ _
      exact (List.mem_filter.mp hmem).2
    have hne : ¬ h.isEmpty := by
      intro e
      simp [keepSegment, e] at hk
    cases habs : (s.take 1 == ['/']) with
    | true =>
      have : joinLoop (h :: t) true = '/' :: joinLoop (h :: t) false := by
        simp [joinLoop]
      simp only [this, joinLoop_false_eq_intercalate]
      simp
    | false =>
      have hj : joinLoop (h :: t) false = List.intercalate ['/'] (h :: t) :=
        joinLoop_false_eq_intercalate _
      simp only [hj]
      have : ¬ (List.intercalate ['/'] (h :: t)).isEmpty := by
        rw [← hj]
        simp only [joinLoop]
        cases h with
        | nil => simp at hne
        | cons c cs => simp
      simp [this]

/- ### Helper lemmas: escape decoding -/

theorem unmangle_copies (c : Char) (s : List Char) (h : c ≠ '\\') :
    unmangle_pathname_from_proc (c :: s) =
      (unmangle_pathname_from_proc s).map (fun r => c :: r) := by
  rw [unmangle_pathname_from_proc.eq_def]
  simp [h]

theorem unmangle_no_backslash (s : List Char) (h : '\\' ∉ s) :
    unmangle_pathname_from_proc s = some s := by
  induction s with
  | nil => rfl
  | cons c rest ih =>
    have hc : c ≠ '\\' := fun e => h (e ▸ List.mem_cons_self _ _)
    have hrest : '\\' ∉ rest := fun m => h (List.mem_cons_of_mem _ m)
    rw [unmangle_copies c rest hc, ih hrest]
    rfl

theorem unmangle_escape (d1 d2 d3 : Char) (s : List Char)
    (h1 : '0' ≤ d1) (h2 : d1 ≤ '3') (h3 : '0' ≤ d2) (h4 : d2 ≤ '7')
    (h5 : '0' ≤ d3) (h6 : d3 ≤ '7') :
    unmangle_pathname_from_proc ('\\' :: d1 :: d2 :: d3 :: s) =
      (unmangle_pathname_from_proc s).map
        (fun r => Char.ofNat ((digitVal d1 * 8 + digitVal d2) * 8 + digitVal d3) :: r) := by
  have n1 : ¬ (d1 < '0' ∨ '3' < d1) := by push_neg; exact ⟨h1, h2⟩
  have n2 : ¬ (d2 < '0' ∨ '7' < d2) := by push_neg; exact ⟨h3, h4⟩
  have n3 : ¬ (d3 < '0' ∨ '7' < d3) := by push_neg; exact ⟨h5, h6⟩
  rw [unmangle_pathname_from_proc.eq_def]
  simp [n1, n2, n3, Nat.shiftLeft_eq]

theorem unmangle_escape_bad (d1 d2 d3 : Char) (s : List Char)
    (h : ¬ ('0' ≤ d1 ∧ d1 ≤ '3' ∧ '0' ≤ d2 ∧ d2 ≤ '7' ∧ '0' ≤ d3 ∧ d3 ≤ '7')) :
    unmangle_pathname_from_proc ('\\' :: d1 :: d2 :: d3 :: s) = none := by
  rw [unmangle_pathname_from_proc.eq_def]
  by_cases c1 : d1 < '0' ∨ '3' < d1
  · simp [c1]
  · by_cases c2 : d2 < '0' ∨ '7' < d2
    · simp [c1, c2]
    · by_cases c3 : d3 < '0' ∨ '7' < d3
      · simp [c1, c2, c3]
      · exfalso
        push_neg at c1 c2 c3
        exact h ⟨c1.1, c1.2, c2.1, c2.2, c3.1, c3.2⟩

/- ### Claim theorems: C1, C2 -/

/-- C1: for every input string, `pathname_normalize` splits on `'/'`, drops
every empty and every single-dot segment (passing `".."` through), rejoins
with `'/'`, preserves a leading `'/'` exactly when the input begins with
`'/'`, and yields `"."` (relative) or `"/"` (absolute) when no segment
remains; in particular on `"a//b/./c"`, `"/a/./b"`, `"a/../b"`, `""` and
`"/"`. -/
theorem claim_C1 :
    (∀ s : List Char,
      pathname_normalize s =
        (if ((s.splitOnP (fun c => c == '/')).filter
              (fun seg => !seg.isEmpty && seg != ['.'])).isEmpty then
          [if s.take 1 == ['/'] then '/' else '.']
         else
          (if s.take 1 == ['/'] then ['/'] else []) ++
            List.intercalate ['/']
              ((s.splitOnP (fun c => c == '/')).filter
                (fun seg => !seg.isEmpty && seg != ['.']))))
    ∧ pathname_normalize "a//b/./c".data = "a/b/c".data
    ∧ pathname_normalize "/a/./b".data = "/a/b".data
    ∧ pathname_normalize "a/../b".data = "a/../b".data
    ∧ pathname_normalize "".data = ".".data
    ∧ pathname_normalize "/".data = "/".data := by
  refine ⟨?_, by decide, by decide, by decide, by decide, by decide⟩
  intro s
  exact pathname_normalize_eq s

/-- C2: the proc escape decoder copies every non-backslash byte unchanged;
at a backslash it requires three following octal digits (first in `0..3`,
the others in `0..7`) and substitutes the byte with that octal value; a
backslash followed by fewer than three characters, or by digits outside the
ranges, is a decode error; in particular `"/mnt/my\040disk"` decodes to
`"/mnt/my disk"` while `"\04"` and `"\089"` are errors. -/
theorem claim_C2 :
    (∀ (c : Char) (s : List Char), c ≠ '\\' →
      unmangle_pathname_from_proc (c :: s) =
        (unmangle_pathname_from_proc s).map (fun r => c :: r))
    ∧ (∀ (d1 d2 d3 : Char) (s : List Char),
        '0' ≤ d1 → d1 ≤ '3' → '0' ≤ d2 → d2 ≤ '7' → '0' ≤ d3 → d3 ≤ '7' →
        unmangle_pathname_from_proc ('\\' :: d1 :: d2 :: d3 :: s) =
          (unmangle_pathname_from_proc s).map
            (fun r => Char.ofNat ((digitVal d1 * 8 + digitVal d2) * 8 + digitVal d3) :: r))
    ∧ (∀ (d1 d2 d3 : Char) (s : List Char),
        ¬ ('0' ≤ d1 ∧ d1 ≤ '3' ∧ '0' ≤ d2 ∧ d2 ≤ '7' ∧ '0' ≤ d3 ∧ d3 ≤ '7') →
        unmangle_pathname_from_proc ('\\' :: d1 :: d2 :: d3 :: s) = none)
    ∧ unmangle_pathname_from_proc ['\\'] = none
    ∧ (∀ c : Char, unmangle_pathname_from_proc ['\\', c] = none)
    ∧ (∀ c c' : Char, unmangle_pathname_from_proc ['\\', c, c'] = none)
    ∧ unmangle_pathname_from_proc "/mnt/my\\040disk".data = some "/mnt/my disk".data
    ∧ unmangle_pathname_from_proc "\\04".data = none
    ∧ unmangle_pathname_from_proc "\\089".data = none := by
  refine ⟨unmangle_copies, unmangle_escape, unmangle_escape_bad,
    by decide, ?_, ?_, by decide, by decide, by decide⟩
  · intro c
    rw [unmangle_pathname_from_proc.eq_def]
    simp
  · intro c c'
    rw [unmangle_pathname_from_proc.eq_def]
    simp

/-- Witness for C2 at concrete inputs: a copied byte, a decoded escape
(`"\040d"` decodes to a space before `'d'`), and a rejected escape. -/
theorem claim_C2_witness :
    unmangle_pathname_from_proc ('a' :: "bc".data) = some "abc".data
    ∧ unmangle_pathname_from_proc ('\\' :: '0' :: '4' :: '0' :: "d".data) = some " d".data
    ∧ unmangle_pathname_from_proc ('\\' :: '0' :: '8' :: '9' :: "d".data) = none := by
  refine ⟨?_, ?_, ?_⟩
  · rw [claim_C2.1 'a' "bc".data (by decide)]
    decide
  · rw [claim_C2.2.1 '0' '4' '0' "d".data (by decide) (by decide) (by decide) (by decide)
      (by decide) (by decide)]
    decide
  · exact claim_C2.2.2.1 '0' '8' '9' "d".data (by decide)

/- ### Claim theorems: C5, C10 (open flags and creation mode) -/

/-- C5: the `file` constructor derives open flags and creation mode from the
option set exactly as the table specifies: read+write is `O_RDWR`, read
alone `O_RDONLY`, write alone `O_WRONLY`; `append`, `create`, `exclusive`,
`tmpfile`, `truncate` each contribute exactly their flag; the mode always
holds owner read/write, `executable` adds owner execute, `group`/`others`
add the group/others read-write bits plus execute when `executable` is also
set. -/
theorem claim_C5 : ∀ o : file_options,
    (o.read = true → o.write = true → file_flags o &&& O_ACCMODE = O_RDWR)
    ∧ (o.read = true → o.write = false → file_flags o &&& O_ACCMODE = O_RDONLY)
    ∧ (o.write = true → o.read = false → file_flags o &&& O_ACCMODE = O_WRONLY)
    ∧ (file_flags o &&& O_APPEND = if o.append then O_APPEND else 0)
    ∧ (file_flags o &&& O_CREAT = if o.create then O_CREAT else 0)
    ∧ (file_flags o &&& O_EXCL = if o.exclusive then O_EXCL else 0)
    ∧ (file_flags o &&& O_TMPFILE = if o.tmpfile then O_TMPFILE else 0)
    ∧ (file_flags o &&& O_TRUNC = if o.truncate then O_TRUNC else 0)
    ∧ file_mode o =
        (S_IRUSR + S_IWUSR
          + (if o.executable then S_IXUSR else 0)
          + (if o.group then S_IRGRP + S_IWGRP else 0)
          + (if o.group && o.executable then S_IXGRP else 0)
          + (if o.others then S_IROTH + S_IWOTH else 0)
          + (if o.others && o.executable then S_IXOTH else 0)) := by
  intro o
  obtain ⟨r, w, ap, cr, ex, tm, tr, xe, gr, ot⟩ := o
  revert r w ap cr ex tm tr xe gr ot
  decide

/-- Witness for C5 at a concrete option set (read+write+create+executable+
group). -/
theorem claim_C5_witness :
    file_flags ⟨true, true, false, true, false, false, false, true, true, false⟩
        &&& O_ACCMODE = O_RDWR := by
  exact (claim_C5 ⟨true, true, false, true, false, false, false, true, true, false⟩).1
    (by decide) (by decide)

/-- C10: an option set with neither `read` nor `write` falls through the
access-mode chain without adding any access bit, so the derived flags equal
the flags derived for the read-only set and the access mode is `O_RDONLY`. -/
theorem claim_C10 : ∀ o : file_options, o.read = false → o.write = false →
    file_flags o = file_flags { o with read := true }
    ∧ file_flags o &&& O_ACCMODE = O_RDONLY := by
  intro o
  obtain ⟨r, w, ap, cr, ex, tm, tr, xe, gr, ot⟩ := o
  revert r w ap cr ex tm tr xe gr ot
  decide

/-- Witness for C10 at the empty option set. -/
theorem claim_C10_witness :
    file_flags ⟨false, false, false, false, false, false, false, false, false, false⟩ =
      file_flags ⟨true, false, false, false, false, false, false, false, false, false⟩ := by
  exact (claim_C10 ⟨false, false, false, false, false, false, false, false, false, false⟩
    (by decide) (by decide)).1

/- ### Claim theorems: C7 (advisory lock acquisition) -/

/-- C7: the lock constructor derives a shared operation when `exclusive` is
false and an exclusive one when true (plus `LOCK_NB` for non-blocking);
`EINTR` responses are retried; the distinguished already-locked condition
is raised exactly when the decisive (first non-`EINTR`) OS response is
`EWOULDBLOCK`; the generic error is raised exactly on any other failing
response; and the two conditions are distinct. -/
theorem claim_C7 :
    (∀ b, lock_operation false b &&& (LOCK_SH ||| LOCK_EX) = LOCK_SH)
    ∧ (∀ b, lock_operation true b &&& (LOCK_SH ||| LOCK_EX) = LOCK_EX)
    ∧ (∀ e, lock_operation e false &&& LOCK_NB = LOCK_NB)
    ∧ (∀ e, lock_operation e true &&& LOCK_NB = 0)
    ∧ (∀ rs, lock_perform (flock_result.eintr :: rs) = lock_perform rs)
    ∧ (∀ rs, lock_perform rs = some lock_outcome.already_locked ↔
        first_response rs = some flock_result.ewouldblock)
    ∧ (∀ rs e, lock_perform rs = some (lock_outcome.failed e) ↔
        first_response rs = some (flock_result.err e))
    ∧ (∀ rs, lock_perform rs = some lock_outcome.acquired ↔
        first_response rs = some flock_result.ok)
    ∧ (∀ e, lock_outcome.already_locked ≠ lock_outcome.failed e)
    ∧ lock_outcome.already_locked ≠ lock_outcome.acquired := by
  refine ⟨by decide, by decide, by decide, by decide, fun rs => rfl, ?_, ?_, ?_,
    fun e h => lock_outcome.noConfusion h, fun h => lock_outcome.noConfusion h⟩
  · intro rs
    induction rs with
    | nil => simp [lock_perform, first_response]
    | cons r rest ih =>
      cases r <;> simp [lock_perform, first_response, List.dropWhile] at ih ⊢ <;>
        exact ih
  · intro rs e
    induction rs with
    | nil => simp [lock_perform, first_response]
    | cons r rest ih =>
      cases r <;> simp [lock_perform, first_response, List.dropWhile] at ih ⊢ <;>
        exact ih
  · intro rs
    induction rs with
    | nil => simp [lock_perform, first_response]
    | cons r rest ih =>
      cases r <;> simp [lock_perform, first_response, List.dropWhile] at ih ⊢ <;>
        exact ih

/- ### Claim theorems: C8 (path joining) -/

/-- C8: `joined` with a name beginning with `'/'` yields a path whose origin
is the handle-less process-root sentinel and whose pathname is the name
unchanged (not normalized); with a relative name it keeps the origin and
normalizes the concatenation `pathname + '/' + name`; the follow flag is
carried over unchanged in both cases (the receiver itself is immutable —
`joined` constructs a new value). -/
theorem claim_C8 : ∀ (p : path_rep) (n : List Char),
    (n.take 1 = ['/'] →
      path_joined p n =
        { org := origin_rep.working, pathname := n, follow := p.follow })
    ∧ (n.take 1 ≠ ['/'] →
      path_joined p n =
        { org := p.org, pathname := pathname_normalize (p.pathname ++ '/' :: n),
          follow := p.follow })
    ∧ (path_joined p n).follow = p.follow := by
  intro p n
  refine ⟨?_, ?_, ?_⟩
  · intro h
    simp [path_joined, h]
  · intro h
    rw [path_joined, if_neg]
    simp [h]
  · by_cases h : n.take 1 = ['/'] <;> simp [path_joined, h]

/-- Witness for C8: joining the absolute name `"/etc"` and the relative name
`"b"` onto the path `(resolved 3, "a", follow := true)`. -/
theorem claim_C8_witness :
    path_joined ⟨origin_rep.resolved 3, "a".data, true⟩ "/etc".data =
      { org := origin_rep.working, pathname := "/etc".data, follow := true }
    ∧ path_joined ⟨origin_rep.resolved 3, "a".data, true⟩ "b".data =
      { org := origin_rep.resolved 3,
        pathname := pathname_normalize ("a".data ++ '/' :: "b".data), follow := true } := by
  exact ⟨(claim_C8 ⟨origin_rep.resolved 3, "a".data, true⟩ "/etc".data).1 (by decide),
    (claim_C8 ⟨origin_rep.resolved 3, "a".data, true⟩ "b".data).2.1 (by decide)⟩

/- ### Helper lemmas: directory scanning -/

theorem scan_core_filter_dots {σ : Type} (raws : List raw_dirent) (s : σ)
    (visit : σ → directory_entry → σ × Bool) :
    scan_directory_core raws s visit =
      scan_directory_core
        (raws.filter (fun r => !(r.dname == ['.'] || r.dname == ['.', '.']))) s visit := by
  induction raws generalizing s with
  | nil => rfl
  | cons r rest ih =>
    by_cases hdot : r.dname = ['.'] ∨ r.dname = ['.', '.']
    · have hf : (fun r : raw_dirent => !(r.dname == ['.'] || r.dname == ['.', '.'])) r = false := by
        simp [hdot]
        rcases hdot with h | h <;> simp [h]
      rw [List.filter_cons_of_neg (by simp_all)]
      simp only [scan_directory_core, if_pos hdot]
      exact ih s
    · rw [List.filter_cons_of_pos (by simp [hdot]; tauto)]
      simp only [scan_directory_core, if_neg hdot]
      cases map_dirent_type_to_kind r.dtype with
      | none => rfl
      | some k =>
        simp only []
        cases hstep : (visit s ⟨r.ino, r.dname, k⟩).2
        · simp only [hstep, if_neg Bool.false_ne_true]
          exact ih _
        · simp [hstep]

theorem scan_core_collect_mem (raws : List raw_dirent) (acc l : List directory_entry) (b : Bool)
    (h : scan_directory_core raws acc (fun a e => (a ++ [e], false)) = some (l, b)) :
    ∀ e ∈ l, e ∈ acc ∨ (e.dname ≠ ['.'] ∧ e.dname ≠ ['.', '.'] ∧
      ∃ r ∈ raws, e.ino = r.ino ∧ e.dname = r.dname ∧
        map_dirent_type_to_kind r.dtype = some e.dkind) := by
  induction raws generalizing acc with
  | nil =>
    simp only [scan_directory_core, Option.some.injEq, Prod.mk.injEq] at h
    intro e he
    exact Or.inl (h.1 ▸ he)
  | cons r rest ih =>
    by_cases hdot : r.dname = ['.'] ∨ r.dname = ['.', '.']
    · simp only [scan_directory_core, if_pos hdot] at h
      intro e he
      rcases ih acc h e he with h' | ⟨h1, h2, rr, hrr, h3⟩
      · exact Or.inl h'
      · exact Or.inr ⟨h1, h2, rr, List.mem_cons_of_mem _ hrr, h3⟩
    · simp only [scan_directory_core, if_neg hdot] at h
      cases hmap : map_dirent_type_to_kind r.dtype with
      | none => rw [hmap] at h; cases h
      | some k =>
        rw [hmap] at h
        simp only [if_neg Bool.false_ne_true] at h
        intro e he
        rcases ih (acc ++ [⟨r.ino, r.dname, k⟩]) h e he with h' | ⟨h1, h2, rr, hrr, h3⟩
        · rcases List.mem_append.mp h' with ha | hb
          · exact Or.inl ha
          · have : e = ⟨r.ino, r.dname, k⟩ := by simpa using hb
            subst this
            push_neg at hdot
            exact Or.inr ⟨hdot.1, hdot.2, r, List.mem_cons_self _ _, rfl, rfl, hmap⟩
        · exact Or.inr ⟨h1, h2, rr, List.mem_cons_of_mem _ hrr, h3⟩

theorem scan_core_collect_bad (raws : List raw_dirent) (acc : List directory_entry)
    (h : ∃ r ∈ raws, ¬ (r.dname = ['.'] ∨ r.dname = ['.', '.']) ∧
      map_dirent_type_to_kind r.dtype = none) :
    scan_directory_core raws acc (fun a e => (a ++ [e], false)) = none := by
  induction raws generalizing acc with
  | nil => simp at h
  | cons r rest ih =>
    rcases h with ⟨rr, hmem, hnd, hnone⟩
    rcases List.mem_cons.mp hmem with heq | hmem'
    · subst heq
      simp only [scan_directory_core, if_neg hnd, hnone]
    · by_cases hdot : r.dname = ['.'] ∨ r.dname = ['.', '.']
      · simp only [scan_directory_core, if_pos hdot]
        exact ih acc ⟨rr, hmem', hnd, hnone⟩
      · simp only [scan_directory_core, if_neg hdot]
        cases hmap : map_dirent_type_to_kind r.dtype with
        | none => rfl
        | some k =>
          simp only [if_neg Bool.false_ne_true]
          exact ih _ ⟨rr, hmem', hnd, hnone⟩

theorem scan_core_early_exit {σ : Type} (raws : List raw_dirent) (s s' : σ)
    (visit : σ → directory_entry → σ × Bool)
    (h : scan_directory_core raws s visit = some (s', true)) (more : List raw_dirent) :
    scan_directory_core (raws ++ more) s visit = some (s', true) := by
  induction raws generalizing s with
  | nil =>
    simp only [scan_directory_core, Option.some.injEq, Prod.mk.injEq] at h
    exact absurd h.2 (by decide)
  | cons r rest ih =>
    by_cases hdot : r.dname = ['.'] ∨ r.dname = ['.', '.']
    · simp only [scan_directory_core, if_pos hdot] at h ⊢
      exact ih s h
    · simp only [scan_directory_core, if_neg hdot] at h ⊢
      cases hmap : map_dirent_type_to_kind r.dtype with
      | none => rw [hmap] at h; simp at h
      | some k =>
        rw [hmap] at h
        dsimp only at h ⊢
        cases hstep : (visit s ⟨r.ino, r.dname, k⟩).2
        · rw [hstep] at h
          simp only [if_neg Bool.false_ne_true] at h ⊢
          exact ih _ h
        · rw [hstep] at h
          simp only [if_pos rfl] at h ⊢
          exact h

theorem map_kind_none_iff (t : Nat) :
    map_dirent_type_to_kind t = none ↔
      t ∉ [DT_BLK, DT_CHR, DT_DIR, DT_FIFO, DT_LNK, DT_REG, DT_SOCK, DT_UNKNOWN] := by
  unfold map_dirent_type_to_kind
  split_ifs with h1 h2 h3 h4 h5 h6 h7 h8 <;> simp_all

/- ### Claim theorem: C6 (directory scanning) -/

/-- C6: in both the collecting and the visitor form, entries named `"."` and
`".."` are never produced (the scan behaves as if they were absent from the
raw stream); every produced entry's kind is the image of its raw type code
under `map_dirent_type_to_kind`, whose domain is exactly the eight `DT_*`
codes of the closed kind set — any other code is a hard error; and the
visitor form stops reading further entries as soon as the visitor returns
`true`. -/
theorem claim_C6 :
    (∀ raws l, scan_directory_collect raws = some l →
      ∀ e ∈ l, e.dname ≠ ['.'] ∧ e.dname ≠ ['.', '.'] ∧
        ∃ r ∈ raws, e.ino = r.ino ∧ e.dname = r.dname ∧
          map_dirent_type_to_kind r.dtype = some e.dkind)
    ∧ (∀ (σ : Type) (raws : List raw_dirent) (s : σ)
        (visit : σ → directory_entry → σ × Bool),
        scan_directory_core raws s visit =
          scan_directory_core
            (raws.filter (fun r => !(r.dname == ['.'] || r.dname == ['.', '.']))) s visit)
    ∧ (∀ raws, (∃ r ∈ raws, ¬ (r.dname = ['.'] ∨ r.dname = ['.', '.']) ∧
          map_dirent_type_to_kind r.dtype = none) →
        scan_directory_collect raws = none)
    ∧ (∀ t, map_dirent_type_to_kind t = none ↔
        t ∉ [DT_BLK, DT_CHR, DT_DIR, DT_FIFO, DT_LNK, DT_REG, DT_SOCK, DT_UNKNOWN])
    ∧ (∀ (σ : Type) (raws : List raw_dirent) (s s' : σ)
        (visit : σ → directory_entry → σ × Bool) (more : List raw_dirent),
        scan_directory_core raws s visit = some (s', true) →
        scan_directory_core (raws ++ more) s visit = some (s', true))
    ∧ (∀ raws (visitor : directory_entry → Bool) (more : List raw_dirent),
        scan_directory_visit raws visitor = some true →
        scan_directory_visit (raws ++ more) visitor = some true) := by
  refine ⟨?_, fun σ raws s visit => scan_core_filter_dots raws s visit,
    ?_, map_kind_none_iff,
    fun σ raws s s' visit more h => scan_core_early_exit raws s s' visit h more, ?_⟩
  · intro raws l h e he
    have h' : ∃ p, scan_directory_core raws ([] : List directory_entry)
        (fun a e => (a ++ [e], false)) = some p ∧ p.1 = l := by
      unfold scan_directory_collect at h
      cases hc : scan_directory_core raws ([] : List directory_entry)
          (fun a e => (a ++ [e], false)) with
      | none => rw [hc] at h; cases h
      | some p => rw [hc] at h; exact ⟨p, rfl, by simpa using h⟩
    obtain ⟨⟨l', b⟩, hc, hl⟩ := h'
    subst hl
    rcases scan_core_collect_mem raws [] l' b hc e he with h0 | ⟨h1, h2, rr, hrr, h3, h4, h5⟩
    · cases h0
    · exact ⟨h1, h2, rr, hrr, h3, h4, h5⟩
  · intro raws h
    unfold scan_directory_collect
    rw [scan_core_collect_bad raws [] h]
    rfl
  · intro raws visitor more h
    unfold scan_directory_visit at h ⊢
    cases hc : scan_directory_core raws () (fun x e => (x, visitor e)) with
    | none => rw [hc] at h; cases h
    | some p =>
      rw [hc] at h
      obtain ⟨u, b⟩ := p
      simp at h
      subst h
      rw [scan_core_early_exit raws () u (fun x e => (x, visitor e)) (by rw [hc]) more]
      rfl

/-- Witness for C6: a raw stream holding `"."`, a regular file, an entry the
visitor stops at, and a trailing entry with an invalid type code that is
never read. -/
theorem claim_C6_witness :
    scan_directory_visit
      ([⟨1, ['.'], 4⟩, ⟨2, ['a'], 8⟩, ⟨3, ['b'], 8⟩] ++ [⟨4, ['c'], 3⟩])
      (fun e => e.dname == ['b']) = some true := by
  have h := (claim_C6.2.2.2.2.2) [⟨1, ['.'], 4⟩, ⟨2, ['a'], 8⟩, ⟨3, ['b'], 8⟩]
    (fun e => e.dname == ['b']) [⟨4, ['c'], 3⟩] (by decide)
  exact h

/- ### Helper lemmas: the mount-root ordering -/

theorem listCharLt_asymm : ∀ a b : List Char, listCharLt a b = true → listCharLt b a = false := by
  intro a
  induction a with
  | nil =>
    intro b h
    cases b with
    | nil => simp [listCharLt] at h
    | cons y ys => simp [listCharLt]
  | cons x xs ih =>
    intro b h
    cases b with
    | nil => simp [listCharLt] at h
    | cons y ys =>
      simp only [listCharLt] at h ⊢
      by_cases h1 : x < y
      · rw [if_neg (asymm h1), if_pos h1]
      · rw [if_neg h1] at h
        by_cases h2 : y < x
        · rw [if_pos h2] at h
          cases h
        · rw [if_neg h2] at h
          rw [if_neg h2, if_neg h1]
          exact ih ys h

theorem listCharLt_connex :
    ∀ a b : List Char, listCharLt a b = false → listCharLt b a = false → a = b := by
  intro a
  induction a with
  | nil =>
    intro b h _
    cases b with
    | nil => rfl
    | cons y ys => simp [listCharLt] at h
  | cons x xs ih =>
    intro b h h'
    cases b with
    | nil => simp [listCharLt] at h'
    | cons y ys =>
      simp only [listCharLt] at h h'
      by_cases h1 : x < y
      · rw [if_pos h1] at h
        cases h
      · by_cases h2 : y < x
        · rw [if_pos h2] at h'
          cases h'
        · rw [if_neg h1, if_neg h2] at h
          rw [if_neg h2, if_neg h1] at h'
          have hxy : x = y := le_antisymm (not_lt.mp h2) (not_lt.mp h1)
          rw [hxy, ih ys h h']

theorem listCharLt_trans : ∀ a b c : List Char,
    listCharLt a b = true → listCharLt b c = true → listCharLt a c = true := by
  intro a
  induction a with
  | nil =>
    intro b c hab hbc
    cases c with
    | nil =>
      cases b with
      | nil => simp [listCharLt] at hab
      | cons y ys => simp [listCharLt] at hbc
    | cons z zs => simp [listCharLt]
  | cons x xs ih =>
    intro b c hab hbc
    cases b with
    | nil => simp [listCharLt] at hab
    | cons y ys =>
      cases c with
      | nil => simp [listCharLt] at hbc
      | cons z zs =>
        simp only [listCharLt] at hab hbc ⊢
        by_cases h1 : x < y
        · by_cases h2 : y < z
          · rw [if_pos (lt_trans h1 h2)]
          · rw [if_neg h2] at hbc
            by_cases h3 : z < y
            · rw [if_pos h3] at hbc
              cases hbc
            · have : y = z := le_antisymm (not_lt.mp h3) (not_lt.mp h2)
              rw [if_pos (this ▸ h1)]
        · rw [if_neg h1] at hab
          by_cases h2 : y < x
          · rw [if_pos h2] at hab
            cases hab
          · rw [if_neg h2] at hab
            have hxy : x = y := le_antisymm (not_lt.mp h2) (not_lt.mp h1)
            subst hxy
            by_cases h3 : x < z
            · rw [if_pos h3]
            · rw [if_neg h3] at hbc
              by_cases h4 : z < x
              · rw [if_pos h4] at hbc
                cases hbc
              · rw [if_neg h4] at hbc
                rw [if_neg h3, if_neg h4]
                exact ih ys zs hab hbc

theorem root_lt_asymm (a b : Nat × List Char) (h : root_lt a b = true) :
    root_lt b a = false := by
  unfold root_lt at h ⊢
  split_ifs at h ⊢ <;>
    first
    | rfl
    | omega
    | exact listCharLt_asymm _ _ h
    | simp_all

theorem root_lt_connex (a b : Nat × List Char)
    (h : root_lt a b = false) (h' : root_lt b a = false) : a = b := by
  unfold root_lt at h h'
  split_ifs at h h' <;>
    first
    | (refine Prod.ext_iff.mpr ⟨by omega, listCharLt_connex _ _ h h'⟩)
    | simp_all

theorem root_lt_trans (a b c : Nat × List Char)
    (hab : root_lt a b = true) (hbc : root_lt b c = true) : root_lt a c = true := by
  unfold root_lt at hab hbc ⊢
  split_ifs at hab hbc ⊢ <;>
    first
    | rfl
    | omega
    | exact listCharLt_trans _ _ _ hab hbc
    | simp_all

theorem root_le_total (a b : Nat × List Char) : root_le a b ∨ root_le b a := by
  unfold root_le
  cases h : root_lt b a
  · exact Or.inl rfl
  · exact Or.inr (root_lt_asymm b a h)

theorem root_le_antisymm (a b : Nat × List Char)
    (h : root_le a b) (h' : root_le b a) : a = b :=
  root_lt_connex a b h' h

theorem root_le_trans (a b c : Nat × List Char)
    (h : root_le a b) (h' : root_le b c) : root_le a c := by
  unfold root_le at h h' ⊢
  cases hca : root_lt c a
  · rfl
  · exfalso
    cases hab : root_lt a b
    · have hba : a = b := root_lt_connex a b hab h
      subst hba
      rw [hca] at h'
      cases h'
    · have : root_lt c b = true := root_lt_trans c a b hca hab
      rw [this] at h'
      cases h'

theorem root_le_fst (a b : Nat × List Char) (h : root_le a b) : a.1 ≤ b.1 := by
  unfold root_le root_lt at h
  by_contra hc
  push_neg at hc
  rw [if_pos hc] at h
  cases h

theorem sorted_dropWhile_ino (ino : Nat) (l : List (Nat × List Char))
    (hs : l.Sorted root_le) (hex : ∃ e ∈ l, e.1 = ino) :
    ∃ e rest, l.dropWhile (fun r => decide (r.1 < ino)) = e :: rest ∧ e.1 = ino := by
  induction l with
  | nil => simp at hex
  | cons h t ih =>
    rw [List.sorted_cons] at hs
    obtain ⟨hhead, hst⟩ := hs
    rw [List.dropWhile_cons]
    by_cases hlt : h.1 < ino
    · rw [if_pos (by simpa using hlt)]
      apply ih hst
      rcases hex with ⟨e, he, hei⟩
      rcases List.mem_cons.mp he with rfl | hmem
      · omega
      · exact ⟨e, hmem, hei⟩
    · rw [if_neg (by simpa using hlt)]
      refine ⟨h, t, rfl, ?_⟩
      rcases hex with ⟨e, he, hei⟩
      rcases List.mem_cons.mp he with rfl | hmem
      · exact hei
      · have := root_le_fst h e (hhead e hmem)
        omega

/- ### Claim theorem: C3 (mount-root fast path of location()) -/

/-- C3: the candidate mounts (device equal to the target's) are recorded as
(root inode, decoded path) pairs; they are sorted ascending by the triple
(inode, path length, path text), which is a total, antisymmetric, transitive
— hence deterministic — order (any sorted arrangement of the candidates is
THE sorted list); the target inode is then looked up by lower bound in the
sorted list, and exactly when a candidate with equal inode exists, the
result is that candidate's decoded path normalized, independent of the
parent-directory walk; otherwise the walk runs. -/
theorem claim_C3 :
    ∀ (mounts : List (Nat × List Char)) (dev ino : Nat) (statIno : List Char → Nat),
    (sort_roots (collect_roots mounts dev statIno)).Perm (collect_roots mounts dev statIno)
    ∧ (sort_roots (collect_roots mounts dev statIno)).Sorted root_le
    ∧ (∀ l', l'.Perm (collect_roots mounts dev statIno) → l'.Sorted root_le →
        l' = sort_roots (collect_roots mounts dev statIno))
    ∧ (∀ a b, root_le a b ∨ root_le b a)
    ∧ (∀ a b, root_le a b → root_le b a → a = b)
    ∧ (∀ a b c, root_le a b → root_le b c → root_le a c)
    ∧ ((∃ e ∈ sort_roots (collect_roots mounts dev statIno), e.1 = ino) →
        ∃ e ∈ sort_roots (collect_roots mounts dev statIno), e.1 = ino ∧
          ∀ walk, location_resolved mounts dev ino statIno walk =
            some (pathname_normalize e.2))
    ∧ (¬ (∃ e ∈ sort_roots (collect_roots mounts dev statIno), e.1 = ino) →
        ∀ walk, location_resolved mounts dev ino statIno walk = walk ()) := by
  intro mounts dev ino statIno
  haveI : IsTotal (Nat × List Char) root_le := ⟨root_le_total⟩
  haveI : IsTrans (Nat × List Char) root_le := ⟨root_le_trans⟩
  haveI : IsAntisymm (Nat × List Char) root_le := ⟨root_le_antisymm⟩
  have hperm : (sort_roots (collect_roots mounts dev statIno)).Perm
      (collect_roots mounts dev statIno) := List.perm_insertionSort root_le _
  have hsorted : (sort_roots (collect_roots mounts dev statIno)).Sorted root_le :=
    List.sorted_insertionSort root_le _
  refine ⟨hperm, hsorted, ?_, root_le_total, root_le_antisymm, root_le_trans, ?_, ?_⟩
  · intro l' hp hsl
    exact List.eq_of_perm_of_sorted (hp.trans hperm.symm) hsl hsorted
  · intro hex
    obtain ⟨e, rest, hdw, hei⟩ :=
      sorted_dropWhile_ino ino (sort_roots (collect_roots mounts dev statIno)) hsorted hex
    have hmem : e ∈ sort_roots (collect_roots mounts dev statIno) :=
      (List.dropWhile_suffix _).subset (hdw ▸ List.mem_cons_self e rest)
    refine ⟨e, hmem, hei, fun walk => ?_⟩
    unfold location_resolved
    dsimp only
    rw [hdw]
    simp [hei]
  · intro hnone walk
    unfold location_resolved
    dsimp only
    cases hdw : (sort_roots (collect_roots mounts dev statIno)).dropWhile
        (fun r => decide (r.1 < ino)) with
    | nil => rfl
    | cons e rest =>
      have hmem : e ∈ sort_roots (collect_roots mounts dev statIno) :=
        (List.dropWhile_suffix _).subset (hdw ▸ List.mem_cons_self e rest)
      have hne : e.1 ≠ ino := fun h => hnone ⟨e, hmem, h⟩
      simp [hne]

/-- Witness for C3: two mounts on device 5 whose roots both stat to inode 7;
the fast path returns the lexicographically first path normalized. -/
theorem claim_C3_witness :
    ∃ e ∈ sort_roots (collect_roots [(5, "/b".data), (5, "/a".data)] 5 (fun _ => 7)),
      e.1 = 7 ∧ ∀ walk,
        location_resolved [(5, "/b".data), (5, "/a".data)] 5 7 (fun _ => 7) walk =
          some (pathname_normalize e.2) :=
  (claim_C3 [(5, "/b".data), (5, "/a".data)] 5 7 (fun _ => 7)).2.2.2.2.2.2.1
    (by exact ⟨(7, "/a".data), by decide, rfl⟩)

/- ### Helper lemmas: mount-table parsing -/

theorem takeWhile_append_pos {p : Char → Bool} (l1 l2 : List Char)
    (h : ∀ c ∈ l1, p c = true) :
    (l1 ++ l2).takeWhile p = l1 ++ l2.takeWhile p := by
  induction l1 with
  | nil => rfl
  | cons c cs ih =>
    rw [List.cons_append, List.takeWhile_cons, if_pos (h c (List.mem_cons_self _ _)),
      ih (fun d hd => h d (List.mem_cons_of_mem _ hd)), List.cons_append]

theorem dropWhile_append_pos {p : Char → Bool} (l1 l2 : List Char)
    (h : ∀ c ∈ l1, p c = true) :
    (l1 ++ l2).dropWhile p = l2.dropWhile p := by
  induction l1 with
  | nil => rfl
  | cons c cs ih =>
    rw [List.cons_append, List.dropWhile_cons, if_pos (h c (List.mem_cons_self _ _))]
    exact ih (fun d hd => h d (List.mem_cons_of_mem _ hd))

theorem dropWhile_of_takeWhile_nil {p : Char → Bool} (l : List Char)
    (h : l.takeWhile p = []) : l.dropWhile p = l := by
  cases l with
  | nil => rfl
  | cons c cs =>
    rw [List.takeWhile_cons] at h
    by_cases hc : p c = true
    · rw [if_pos hc] at h
      cases h
    · rw [List.dropWhile_cons, if_neg hc]

theorem ne_of_isDigit (c d : Char) (h : c.isDigit = true) (hd : d.isDigit = false) :
    c ≠ d := fun e => by
  rw [e, hd] at h
  cases h

theorem isCSpace_eq_false_of_isDigit (c : Char) (h : c.isDigit = true) :
    isCSpace c = false := by
  have h1 : c ≠ ' ' := ne_of_isDigit _ _ h (by decide)
  have h2 : c ≠ '\t' := ne_of_isDigit _ _ h (by decide)
  have h3 : c ≠ '\n' := ne_of_isDigit _ _ h (by decide)
  have h4 : c ≠ '\x0b' := ne_of_isDigit _ _ h (by decide)
  have h5 : c ≠ '\x0c' := ne_of_isDigit _ _ h (by decide)
  have h6 : c ≠ '\r' := ne_of_isDigit _ _ h (by decide)
  simp [isCSpace, h1, h2, h3, h4, h5, h6]

theorem dropWhile_isCSpace_of_digit (ds rest : List Char) (hne : ds ≠ [])
    (hds : ∀ c ∈ ds, c.isDigit = true) :
    (ds ++ rest).dropWhile isCSpace = ds ++ rest := by
  cases ds with
  | nil => exact absurd rfl hne
  | cons d ds' =>
    rw [List.cons_append, List.dropWhile_cons,
      if_neg (by simp [isCSpace_eq_false_of_isDigit d (hds d (List.mem_cons_self _ _))])]

theorem scanSkipInt_eval (s ds rest : List Char) (hne : ds ≠ [])
    (hds : ∀ c ∈ ds, c.isDigit = true)
    (hdrop : s.dropWhile isCSpace = ds ++ rest)
    (hstop : rest.takeWhile Char.isDigit = []) :
    scanSkipInt s = some rest := by
  unfold scanSkipInt
  rw [hdrop]
  cases ds with
  | nil => exact absurd rfl hne
  | cons d ds' =>
    have hd : d.isDigit = true := hds d (List.mem_cons_self _ _)
    have hsign : dropSign (d :: ds' ++ rest) = (d :: ds') ++ rest := by
      simp [dropSign, ne_of_isDigit d '+' hd (by decide),
        ne_of_isDigit d '-' hd (by decide)]
    dsimp only
    rw [hsign, takeWhile_append_pos _ _ hds, hstop, List.append_nil,
      dropWhile_append_pos _ _ hds, dropWhile_of_takeWhile_nil _ hstop,
      if_neg (by simp)]

theorem scanUInt_eval (s ds rest : List Char) (hne : ds ≠ [])
    (hds : ∀ c ∈ ds, c.isDigit = true)
    (hdrop : s.dropWhile isCSpace = ds ++ rest)
    (hstop : rest.takeWhile Char.isDigit = []) :
    scanUInt s = some (digitsToNat ds % 2 ^ 32, rest) := by
  unfold scanUInt
  rw [hdrop]
  cases ds with
  | nil => exact absurd rfl hne
  | cons d ds' =>
    have hd : d.isDigit = true := hds d (List.mem_cons_self _ _)
    have hsign : splitSign ((d :: ds') ++ rest) = (false, (d :: ds') ++ rest) := by
      simp [splitSign, ne_of_isDigit d '-' hd (by decide),
        ne_of_isDigit d '+' hd (by decide)]
    dsimp only
    rw [hsign]
    dsimp only
    rw [takeWhile_append_pos _ _ hds, hstop, List.append_nil,
      dropWhile_append_pos _ _ hds, dropWhile_of_takeWhile_nil _ hstop,
      if_neg (by simp)]
    simp

theorem scanMajMin_eval (f1 f2 maj mnr tail0 : List Char)
    (h1 : f1 ≠ []) (hd1 : ∀ c ∈ f1, c.isDigit = true)
    (h2 : f2 ≠ []) (hd2 : ∀ c ∈ f2, c.isDigit = true)
    (h3 : maj ≠ []) (hd3 : ∀ c ∈ maj, c.isDigit = true)
    (h4 : mnr ≠ []) (hd4 : ∀ c ∈ mnr, c.isDigit = true) :
    scanMajMin (f1 ++ (' ' :: (f2 ++ (' ' :: (maj ++ (':' :: (mnr ++ (' ' :: tail0)))))))) =
      some (digitsToNat maj % 2 ^ 32, digitsToNat mnr % 2 ^ 32,
        f1.length + f2.length + maj.length + mnr.length + 3) := by
  have hs1 : scanSkipInt
      (f1 ++ (' ' :: (f2 ++ (' ' :: (maj ++ (':' :: (mnr ++ (' ' :: tail0)))))))) =
      some (' ' :: (f2 ++ (' ' :: (maj ++ (':' :: (mnr ++ (' ' :: tail0))))))) := by
    refine scanSkipInt_eval _ f1 _ h1 hd1 ?_ ?_
    · exact dropWhile_isCSpace_of_digit f1 _ h1 hd1
    · rw [List.takeWhile_cons, if_neg (by decide)]
  have hs2 : scanSkipInt (' ' :: (f2 ++ (' ' :: (maj ++ (':' :: (mnr ++ (' ' :: tail0))))))) =
      some (' ' :: (maj ++ (':' :: (mnr ++ (' ' :: tail0))))) := by
    refine scanSkipInt_eval _ f2 _ h2 hd2 ?_ ?_
    · rw [List.dropWhile_cons, if_pos (by decide)]
      exact dropWhile_isCSpace_of_digit f2 _ h2 hd2
    · rw [List.takeWhile_cons, if_neg (by decide)]
  have hu1 : scanUInt (' ' :: (maj ++ (':' :: (mnr ++ (' ' :: tail0))))) =
      some (digitsToNat maj % 2 ^ 32, ':' :: (mnr ++ (' ' :: tail0))) := by
    refine scanUInt_eval _ maj _ h3 hd3 ?_ ?_
    · rw [List.dropWhile_cons, if_pos (by decide)]
      exact dropWhile_isCSpace_of_digit maj _ h3 hd3
    · rw [List.takeWhile_cons, if_neg (by decide)]
  have hu2 : scanUInt (mnr ++ (' ' :: tail0)) =
      some (digitsToNat mnr % 2 ^ 32, ' ' :: tail0) := by
    refine scanUInt_eval _ mnr _ h4 hd4 ?_ ?_
    · exact dropWhile_isCSpace_of_digit mnr _ h4 hd4
    · rw [List.takeWhile_cons, if_neg (by decide)]
  unfold scanMajMin
  simp only [hs1, hs2, hu1, hu2, Option.bind_eq_bind, Option.some_bind]
  simp [List.length_append]
  omega

theorem parse_mountinfo_line (f1 f2 maj mnr root mp aft more dmp : List Char)
    (h1 : f1 ≠ []) (hd1 : ∀ c ∈ f1, c.isDigit = true)
    (h2 : f2 ≠ []) (hd2 : ∀ c ∈ f2, c.isDigit = true)
    (h3 : maj ≠ []) (hd3 : ∀ c ∈ maj, c.isDigit = true)
    (h4 : mnr ≠ []) (hd4 : ∀ c ∈ mnr, c.isDigit = true)
    (hroot : ∀ c ∈ root, c ≠ ' ' ∧ c ≠ '\n')
    (hmp : ∀ c ∈ mp, c ≠ ' ' ∧ c ≠ '\n')
    (haft : ∀ c ∈ aft, c ≠ '\n')
    (hdec : unmangle_pathname_from_proc mp = some dmp) :
    parse_mountinfo
      ((f1 ++ (' ' :: (f2 ++ (' ' :: (maj ++ (':' :: (mnr ++ (' ' ::
        (root ++ (' ' :: (mp ++ (' ' :: aft)))))))))))) ++ '\n' :: more) =
      (parse_mountinfo more).map
        (fun ms =>
          (makedev (digitsToNat maj % 2 ^ 32) (digitsToNat mnr % 2 ^ 32), dmp) :: ms) := by
  have hnl : ∀ c ∈ f1 ++ (' ' :: (f2 ++ (' ' :: (maj ++ (':' :: (mnr ++ (' ' ::
      (root ++ (' ' :: (mp ++ (' ' :: aft))))))))))), (c != '\n') = true := by
    simp only [List.forall_mem_append, List.forall_mem_cons, bne_iff_ne]
    refine ⟨fun c hc => ne_of_isDigit c _ (hd1 c hc) (by decide),
      by decide,
      fun c hc => ne_of_isDigit c _ (hd2 c hc) (by decide),
      by decide,
      fun c hc => ne_of_isDigit c _ (hd3 c hc) (by decide),
      by decide,
      fun c hc => ne_of_isDigit c _ (hd4 c hc) (by decide),
      by decide,
      fun c hc => (hroot c hc).2,
      by decide,
      fun c hc => (hmp c hc).2,
      by decide,
      fun c hc => haft c hc⟩
  have hmemnl : '\n' ∈ (f1 ++ (' ' :: (f2 ++ (' ' :: (maj ++ (':' :: (mnr ++ (' ' ::
      (root ++ (' ' :: (mp ++ (' ' :: aft)))))))))))) ++ '\n' :: more :=
    List.mem_append.mpr (Or.inr (List.mem_cons_self _ _))
  have htake : ((f1 ++ (' ' :: (f2 ++ (' ' :: (maj ++ (':' :: (mnr ++ (' ' ::
      (root ++ (' ' :: (mp ++ (' ' :: aft)))))))))))) ++ '\n' :: more).takeWhile
        (fun c => c != '\n') =
      f1 ++ (' ' :: (f2 ++ (' ' :: (maj ++ (':' :: (mnr ++ (' ' ::
        (root ++ (' ' :: (mp ++ (' ' :: aft))))))))))) := by
    rw [takeWhile_append_pos _ _ hnl, List.takeWhile_cons, if_neg (by decide),
      List.append_nil]
  have hdropnl : ((f1 ++ (' ' :: (f2 ++ (' ' :: (maj ++ (':' :: (mnr ++ (' ' ::
      (root ++ (' ' :: (mp ++ (' ' :: aft)))))))))))) ++ '\n' :: more).dropWhile
        (fun c => c != '\n') = '\n' :: more := by
    rw [dropWhile_append_pos _ _ hnl, List.dropWhile_cons, if_neg (by decide)]
  rw [parse_mountinfo.eq_def, dif_pos hmemnl]
  dsimp only
  rw [htake, hdropnl]
  dsimp only [List.tail_cons]
  rw [scanMajMin_eval f1 f2 maj mnr (root ++ (' ' :: (mp ++ (' ' :: aft))))
    h1 hd1 h2 hd2 h3 hd3 h4 hd4]
  dsimp only
  have hsh : (f1 ++ (' ' :: (f2 ++ (' ' :: (maj ++ (':' :: (mnr ++ (' ' ::
      (root ++ (' ' :: (mp ++ (' ' :: aft)))))))))))) ++ '\x00' :: more =
      (f1 ++ (' ' :: (f2 ++ (' ' :: (maj ++ (':' :: (mnr ++ [' '])))))))
        ++ (root ++ (' ' :: (mp ++ (' ' :: (aft ++ ('\x00' :: more)))))) := by
    simp only [List.append_assoc, List.cons_append, List.nil_append]
  rw [hsh, List.drop_left' (by simp [List.length_append]; omega)]
  have hdsp : (root ++ (' ' :: (mp ++ (' ' :: (aft ++ ('\x00' :: more)))))).dropWhile
      (fun c => c != ' ') = ' ' :: (mp ++ (' ' :: (aft ++ ('\x00' :: more)))) := by
    rw [dropWhile_append_pos _ _ (fun c hc => by simp [(hroot c hc).1]),
      List.dropWhile_cons, if_neg (by decide)]
  rw [hdsp]
  dsimp only
  have hall : (mp ++ (' ' :: (aft ++ ('\x00' :: more)))).all (fun c => c != ' ') = false := by
    simp [List.all_append]
  rw [hall, if_neg Bool.false_ne_true]
  have htok : (mp ++ (' ' :: (aft ++ ('\x00' :: more)))).takeWhile (fun c => c != ' ') = mp := by
    rw [takeWhile_append_pos _ _ (fun c hc => by simp [(hmp c hc).1]),
      List.takeWhile_cons, if_neg (by decide), List.append_nil]
  rw [htok, hdec]
  cases hpm : parse_mountinfo more with
  | none => rfl
  | some ms => rfl

theorem parse_mountinfo_scanfail (buf : List Char) (hmem : '\n' ∈ buf)
    (hscan : scanMajMin (buf.takeWhile (fun c => c != '\n')) = none) :
    parse_mountinfo buf = none := by
  rw [parse_mountinfo.eq_def, dif_pos hmem]
  dsimp only
  rw [hscan]

theorem parse_mountinfo_no_newline (buf : List Char) (h : '\n' ∉ buf) :
    parse_mountinfo buf = some [] := by
  rw [parse_mountinfo.eq_def, dif_neg h]

theorem parse_mountinfo_nil : parse_mountinfo ([] : List Char) = some [] :=
  parse_mountinfo_no_newline [] (by decide)

theorem parse_mountinfo_ex2 :
    parse_mountinfo "5 6 7:8 root2 mp2 rest\n".data = some [(makedev 7 8, "mp2".data)] := by
  rw [parse_mountinfo.eq_def, dif_pos (by decide)]
  dsimp only
  rw [show (("5 6 7:8 root2 mp2 rest\n".data.dropWhile (fun c => c != '\n')).tail)
      = ([] : List Char) from by decide]
  rw [parse_mountinfo_nil]
  decide

theorem parse_mountinfo_cross :
    parse_mountinfo "1 2 3:4 root\n5 6 7:8 root2 mp2 rest\n".data =
      some [(makedev 3 4, "6".data), (makedev 7 8, "mp2".data)] := by
  rw [parse_mountinfo.eq_def, dif_pos (by decide)]
  dsimp only
  rw [show (("1 2 3:4 root\n5 6 7:8 root2 mp2 rest\n".data.dropWhile
      (fun c => c != '\n')).tail) = "5 6 7:8 root2 mp2 rest\n".data from by decide]
  rw [parse_mountinfo_ex2]
  decide

theorem parse_mountinfo_short : parse_mountinfo "1 2 3:4 root\n".data = none := by
  rw [parse_mountinfo.eq_def, dif_pos (by decide)]
  decide

theorem parse_mountinfo_badfmt : parse_mountinfo "1 2 x y z\n".data = none := by
  rw [parse_mountinfo.eq_def, dif_pos (by decide)]
  decide

/- ### Claim theorems: C4 (mount-table parser) -/

/-- C4 counterexample: the claim says each newline-terminated line is
processed independently and a line lacking the mount-point field raises a
parse error.  The first line `"1 2 3:4 root"` lacks the mount-point (5th)
field; alone it does raise the error, but followed by a second line the
parser succeeds and records the token `"6"` — taken from the SECOND line —
as the first mount's path, because the space search runs to the end of the
whole buffer rather than the end of the line. -/
theorem claim_C4_counterexample :
    parse_mountinfo "1 2 3:4 root\n5 6 7:8 root2 mp2 rest\n".data =
      some [(makedev 3 4, "6".data), (makedev 7 8, "mp2".data)]
    ∧ parse_mountinfo "1 2 3:4 root\n".data = none :=
  ⟨parse_mountinfo_cross, parse_mountinfo_short⟩

/-- C4 (amended): the parser runs once per newline-terminated line, requires
the third whitespace-delimited field to have the form `major:minor` (used as
the device id via `makedev`), takes the mount point as the token between the
next two spaces — searching for those spaces in the remainder of the WHOLE
buffer, so on a well-formed line it is the 5th field and everything after it
on the line is ignored, while on a line lacking the field the tokens come
from the following lines; the mount point is decoded with the proc escape
decoder; a line whose `major:minor` scan fails raises the parse error, and a
missing mount-point field raises the error only when no two further
space-delimited tokens remain in the buffer; text after the last newline is
ignored. -/
theorem claim_C4 :
    (∀ f1 f2 maj mnr root mp aft more dmp : List Char,
      f1 ≠ [] → (∀ c ∈ f1, c.isDigit = true) →
      f2 ≠ [] → (∀ c ∈ f2, c.isDigit = true) →
      maj ≠ [] → (∀ c ∈ maj, c.isDigit = true) →
      mnr ≠ [] → (∀ c ∈ mnr, c.isDigit = true) →
      (∀ c ∈ root, c ≠ ' ' ∧ c ≠ '\n') →
      (∀ c ∈ mp, c ≠ ' ' ∧ c ≠ '\n') →
      (∀ c ∈ aft, c ≠ '\n') →
      unmangle_pathname_from_proc mp = some dmp →
      parse_mountinfo
        ((f1 ++ (' ' :: (f2 ++ (' ' :: (maj ++ (':' :: (mnr ++ (' ' ::
          (root ++ (' ' :: (mp ++ (' ' :: aft)))))))))))) ++ '\n' :: more) =
        (parse_mountinfo more).map
          (fun ms =>
            (makedev (digitsToNat maj % 2 ^ 32) (digitsToNat mnr % 2 ^ 32), dmp) :: ms))
    ∧ (∀ buf : List Char, '\n' ∈ buf →
        scanMajMin (buf.takeWhile (fun c => c != '\n')) = none →
        parse_mountinfo buf = none)
    ∧ (∀ buf : List Char, '\n' ∉ buf → parse_mountinfo buf = some [])
    ∧ parse_mountinfo "1 2 x y z\n".data = none
    ∧ parse_mountinfo "1 2 3:4 root\n".data = none
    ∧ parse_mountinfo "1 2 3:4 root\n5 6 7:8 root2 mp2 rest\n".data =
        some [(makedev 3 4, "6".data), (makedev 7 8, "mp2".data)] :=
  ⟨parse_mountinfo_line, parse_mountinfo_scanfail, parse_mountinfo_no_newline,
    parse_mountinfo_badfmt, parse_mountinfo_short, parse_mountinfo_cross⟩

/-- Witness for C4 at a realistic mountinfo line
`"36 25 0:32 / /mnt rw"`: device `makedev 0 32`, mount point `"/mnt"`,
trailing fields ignored. -/
theorem claim_C4_witness :
    parse_mountinfo
      (("36".data ++ (' ' :: ("25".data ++ (' ' :: ("0".data ++ (':' :: ("32".data ++ (' ' ::
        ("/".data ++ (' ' :: ("/mnt".data ++ (' ' :: "rw".data)))))))))))) ++ '\n' :: []) =
      (parse_mountinfo []).map
        (fun ms =>
          (makedev (digitsToNat "0".data % 2 ^ 32) (digitsToNat "32".data % 2 ^ 32),
            "/mnt".data) :: ms) :=
  claim_C4.1 "36".data "25".data "0".data "32".data "/".data "/mnt".data "rw".data []
    "/mnt".data (by decide) (by decide) (by decide) (by decide) (by decide) (by decide)
    (by decide) (by decide) (by decide) (by decide) (by decide) (by decide)

/- ### Helper lemmas: handle lifecycle -/

theorem hmem_decomp (l : List (Nat × Option Nat)) (h : Nat) (hm : h ∈ hkeys l) :
    ∃ l1 v l2, l = l1 ++ (h, v) :: l2 ∧ h ∉ hkeys l1 ∧
      hlookup l h = some v ∧
      (∀ w, hset l h w = l1 ++ (h, w) :: l2) ∧
      herase l h = l1 ++ l2 := by
  induction l with
  | nil => simp [hkeys] at hm
  | cons p rest ih =>
    obtain ⟨k, v0⟩ := p
    by_cases hph : k = h
    · subst hph
      refine ⟨[], v0, rest, by simp, by simp [hkeys], ?_, ?_, ?_⟩
      · simp [hlookup]
      · intro w
        simp [hset]
      · simp [herase]
    · have hm' : h ∈ hkeys rest := by
        simp [hkeys] at hm
        rcases hm with hm | hm
        · exact absurd hm.symm hph
        · simpa [hkeys] using hm
      obtain ⟨l1, v, l2, he, hnk, hlk, hst, her⟩ := ih hm'
      refine ⟨(k, v0) :: l1, v, l2, by rw [he]; rfl, ?_, ?_, ?_, ?_⟩
      · simp [hkeys]
        exact ⟨fun e => hph e.symm, by simpa [hkeys] using hnk⟩
      · simp [hlookup, hph, hlk]
      · intro w
        simp [hset, hph, hst w]
      · simp [herase, hph, her]

theorem countH_append (l1 l2 : List (Nat × Option Nat)) (t : Nat) :
    countH (l1 ++ l2) t = countH l1 t + countH l2 t := by
  simp [countH, List.filter_append]

theorem countH_cons (k : Nat) (v : Option Nat) (rest : List (Nat × Option Nat)) (t : Nat) :
    countH ((k, v) :: rest) t = (if v = some t then 1 else 0) + countH rest t := by
  by_cases hv : v = some t <;> simp [countH, List.filter_cons, hv] <;> omega

theorem countH_hset (l : List (Nat × Option Nat)) (h : Nat) (w : Option Nat) (t : Nat)
    (hm : h ∈ hkeys l) :
    ∃ v, hlookup l h = some v ∧
      countH (hset l h w) t + (if v = some t then 1 else 0) =
        countH l t + (if w = some t then 1 else 0) := by
  obtain ⟨l1, v, l2, he, _, hlk, hst, _⟩ := hmem_decomp l h hm
  refine ⟨v, hlk, ?_⟩
  rw [hst w]
  conv_rhs => rw [he]
  rw [countH_append, countH_cons, countH_append, countH_cons]
  omega

theorem countH_herase (l : List (Nat × Option Nat)) (h : Nat) (t : Nat)
    (hm : h ∈ hkeys l) :
    ∃ v, hlookup l h = some v ∧
      countH (herase l h) t + (if v = some t then 1 else 0) = countH l t := by
  obtain ⟨l1, v, l2, he, _, hlk, _, her⟩ := hmem_decomp l h hm
  refine ⟨v, hlk, ?_⟩
  rw [her]
  conv_rhs => rw [he]
  rw [countH_append, countH_append, countH_cons]
  omega

theorem hkeys_hset (l : List (Nat × Option Nat)) (h : Nat) (w : Option Nat) :
    hkeys (hset l h w) = hkeys l := by
  induction l with
  | nil => rfl
  | cons p rest ih =>
    by_cases hph : p.1 = h
    · simp [hset, hph, hkeys]
    · simp [hset, hph, hkeys]
      simpa [hkeys] using ih

theorem hlookup_append_right (l1 l2 : List (Nat × Option Nat)) (h : Nat)
    (hn : h ∉ hkeys l1) : hlookup (l1 ++ l2) h = hlookup l2 h := by
  induction l1 with
  | nil => rfl
  | cons p rest ih =>
    have hph : p.1 ≠ h := by
      intro e
      exact hn (by simp [hkeys, e])
    rw [List.cons_append, hlookup, if_neg hph]
    exact ih (fun hm => hn (by simp [hkeys]; right; simpa [hkeys] using hm))

theorem hlookup_hset_self (l : List (Nat × Option Nat)) (h : Nat) (w : Option Nat)
    (hm : h ∈ hkeys l) : hlookup (hset l h w) h = some w := by
  obtain ⟨l1, v, l2, _, hnk, _, hst, _⟩ := hmem_decomp l h hm
  rw [hst w, hlookup_append_right _ _ _ hnk, hlookup, if_pos rfl]

theorem hlookup_hset_ne (l : List (Nat × Option Nat)) (h h' : Nat) (w : Option Nat)
    (hne : h ≠ h') : hlookup (hset l h w) h' = hlookup l h' := by
  induction l with
  | nil => rfl
  | cons p rest ih =>
    by_cases hph : p.1 = h
    · rw [hset, if_pos hph, hlookup, if_neg hne, hlookup, if_neg (hph ▸ hne)]
    · rw [hset, if_neg hph, hlookup, hlookup]
      by_cases hph' : p.1 = h'
      · rw [if_pos hph', if_pos hph']
      · rw [if_neg hph', if_neg hph', ih]

theorem hlookup_of_mem (l : List (Nat × Option Nat)) (h : Nat) (hm : h ∈ hkeys l) :
    ∃ v, hlookup l h = some v := by
  obtain ⟨l1, v, l2, _, _, hlk, _, _⟩ := hmem_decomp l h hm
  exact ⟨v, hlk⟩

theorem count_match_opt (cl : List Nat) (v : Option Nat) (t : Nat) :
    (match v with | some t0 => cl ++ [t0] | none => cl).count t =
      cl.count t + (if v = some t then 1 else 0) := by
  cases v with
  | none => simp
  | some t0 =>
    by_cases h : t0 = t
    · subst h
      simp [List.count_append]
    · simp [List.count_append, List.count_cons, h, Ne.symm h]

theorem hinv_of_tokCount_eq (st st' : hstate) (hn : st'.next = st.next)
    (he : ∀ t, tokCount st' t = tokCount st t) (hinvst : hinv st) : hinv st' := by
  obtain ⟨i1, i2⟩ := hinvst
  exact ⟨fun t ht => (he t).trans (i1 t (hn ▸ ht)),
    fun t ht => (he t).trans (i2 t (hn ▸ ht))⟩

theorem hinv_step (st : hstate) (op : hop) (hleg : legalOp st op) (hinvst : hinv st) :
    hinv (hstep st op) := by
  cases op with
  | mkEmpty h =>
    refine hinv_of_tokCount_eq st _ rfl (fun t => ?_) hinvst
    simp [hstep, tokCount, countH_cons]
  | mkFd h =>
    obtain ⟨i1, i2⟩ := hinvst
    have hd : ∀ t, tokCount (hstep st (hop.mkFd h)) t =
        (if some st.next = some t then 1 else 0) + tokCount st t := by
      intro t
      simp [hstep, tokCount, countH_cons]
      omega
    refine ⟨fun t ht => ?_, fun t ht => ?_⟩
    · rw [hd t]
      by_cases hnt : st.next = t
      · subst hnt
        simp [i2 st.next le_rfl]
      · have ht' : t < st.next := by
          simp [hstep] at ht
          omega
        simp [hnt, i1 t ht']
    · have ht' : st.next + 1 ≤ t := by
        simpa [hstep] using ht
      rw [hd t]
      have hnt : st.next ≠ t := by omega
      simp [hnt, i2 t (by omega)]
  | moveCtor dst src =>
    obtain ⟨hdstn, hsrc, hne⟩ := hleg
    refine hinv_of_tokCount_eq st _ rfl (fun t => ?_) hinvst
    obtain ⟨v, hlk, heq⟩ := countH_hset st.handles src none t hsrc
    have hj : (hlookup st.handles src).join = v := by rw [hlk]; rfl
    unfold tokCount
    simp only [hstep]
    rw [hj, countH_cons]
    by_cases hv : v = some t <;> simp [hv] at heq ⊢ <;> omega
  | swapOp a b =>
    obtain ⟨ha, hb⟩ := hleg
    refine hinv_of_tokCount_eq st _ rfl (fun t => ?_) hinvst
    obtain ⟨va, hlka⟩ := hlookup_of_mem _ _ ha
    obtain ⟨vb, hlkb⟩ := hlookup_of_mem _ _ hb
    have hja : (hlookup st.handles a).join = va := by rw [hlka]; rfl
    have hjb : (hlookup st.handles b).join = vb := by rw [hlkb]; rfl
    obtain ⟨va', hlka', heq1⟩ := countH_hset st.handles a vb t ha
    rw [Option.some.inj (hlka'.symm.trans hlka)] at heq1
    have hb' : b ∈ hkeys (hset st.handles a vb) := by
      rw [hkeys_hset]; exact hb
    have hlkb' : hlookup (hset st.handles a vb) b = some vb := by
      by_cases hab : a = b
      · subst hab
        exact hlookup_hset_self _ _ _ ha
      · rw [hlookup_hset_ne _ _ _ _ hab]
        exact hlkb
    obtain ⟨vb', hlkb'', heq2⟩ := countH_hset (hset st.handles a vb) b va t hb'
    rw [Option.some.inj (hlkb''.symm.trans hlkb')] at heq2
    unfold tokCount
    simp only [hstep]
    rw [hja, hjb]
    by_cases hvat : va = some t <;> by_cases hvbt : vb = some t <;>
      simp [hvat, hvbt] at heq1 heq2 ⊢ <;> omega
  | release h =>
    have hh : h ∈ hkeys st.handles := hleg
    refine hinv_of_tokCount_eq st _ rfl (fun t => ?_) hinvst
    obtain ⟨v, hlk, heq⟩ := countH_hset st.handles h none t hh
    have hj : (hlookup st.handles h).join = v := by rw [hlk]; rfl
    unfold tokCount
    simp only [hstep]
    rw [hj, count_match_opt]
    by_cases hv : v = some t <;> simp [hv] at heq ⊢ <;> omega
  | destroy h =>
    have hh : h ∈ hkeys st.handles := hleg
    refine hinv_of_tokCount_eq st _ rfl (fun t => ?_) hinvst
    obtain ⟨v, hlk, heq⟩ := countH_herase st.handles h t hh
    have hj : (hlookup st.handles h).join = v := by rw [hlk]; rfl
    unfold tokCount
    simp only [hstep]
    rw [hj, count_match_opt]
    by_cases hv : v = some t <;> simp [hv] at heq ⊢ <;> omega
  | moveAssign dst src =>
    obtain ⟨hdst, hsrc⟩ := hleg
    refine hinv_of_tokCount_eq st _ rfl (fun t => ?_) hinvst
    obtain ⟨vs, hlks⟩ := hlookup_of_mem _ _ hsrc
    obtain ⟨vd, hlkd⟩ := hlookup_of_mem _ _ hdst
    have hjs : (hlookup st.handles src).join = vs := by rw [hlks]; rfl
    have hjd : (hlookup st.handles dst).join = vd := by rw [hlkd]; rfl
    obtain ⟨vd', hlkd', heq1⟩ := countH_hset st.handles dst vs t hdst
    rw [Option.some.inj (hlkd'.symm.trans hlkd)] at heq1
    have hsrc' : src ∈ hkeys (hset st.handles dst vs) := by
      rw [hkeys_hset]; exact hsrc
    have hlks' : hlookup (hset st.handles dst vs) src = some vs := by
      by_cases hds : dst = src
      · subst hds
        exact hlookup_hset_self _ _ _ hdst
      · rw [hlookup_hset_ne _ _ _ _ hds]
        exact hlks
    obtain ⟨vs', hlks'', heq2⟩ := countH_hset (hset st.handles dst vs) src vd t hsrc'
    rw [Option.some.inj (hlks''.symm.trans hlks')] at heq2
    have hsrc'' : src ∈ hkeys (hset (hset st.handles dst vs) src vd) := by
      rw [hkeys_hset, hkeys_hset]; exact hsrc
    have hlkcur : hlookup (hset (hset st.handles dst vs) src vd) src = some vd :=
      hlookup_hset_self _ _ _ hsrc'
    have hjcur : (hlookup (hset (hset st.handles dst vs) src vd) src).join = vd := by
      rw [hlkcur]; rfl
    obtain ⟨vd'', hlkcur', heq3⟩ :=
      countH_hset (hset (hset st.handles dst vs) src vd) src none t hsrc''
    rw [Option.some.inj (hlkcur'.symm.trans hlkcur)] at heq3
    unfold tokCount
    simp only [hstep]
    rw [hjs, hjd, hjcur, count_match_opt]
    by_cases hvdt : vd = some t <;> by_cases hvst : vs = some t <;>
      simp [hvdt, hvst] at heq1 heq2 heq3 ⊢ <;> omega

theorem hinv_run (ops : List hop) : ∀ st, legalTrace st ops → hinv st → hinv (hrun st ops) := by
  induction ops with
  | nil => exact fun st _ h => h
  | cons op rest ih =>
    intro st hleg hinvst
    obtain ⟨h1, h2⟩ := hleg
    exact ih (hstep st op) h2 (hinv_step st op h1 hinvst)

theorem hinv_init : hinv initState := by
  refine ⟨fun t ht => ?_, fun t ht => ?_⟩
  · simp [initState] at ht
  · simp [tokCount, initState, countH]

/- ### Claim theorem: C9 (handle descriptor lifecycle) -/

/-- C9: a handle owns at most one descriptor (its single optional token) and
the operation alphabet has no copy, matching the deleted copy operations;
along every legal sequence of constructions, moves, swaps, move-assignments,
releases and destructions, every descriptor is closed at most once; a
descriptor handed back by `release()` is never closed; once all handles are
destroyed, every descriptor ever created was closed exactly once or released
exactly once; and `release()` leaves the handle empty. -/
theorem claim_C9 : ∀ ops : List hop, legalTrace initState ops →
    (∀ t, (hrun initState ops).closed.count t ≤ 1)
    ∧ (∀ t, t ∈ (hrun initState ops).released → t ∉ (hrun initState ops).closed)
    ∧ ((hrun initState ops).handles = [] →
        ∀ t, t < (hrun initState ops).next →
          (hrun initState ops).closed.count t + (hrun initState ops).released.count t = 1)
    ∧ (∀ h, h ∈ hkeys (hrun initState ops).handles →
        hlookup (hstep (hrun initState ops) (hop.release h)).handles h = some none) := by
  intro ops hleg
  obtain ⟨i1, i2⟩ := hinv_run ops initState hleg hinv_init
  refine ⟨fun t => ?_, fun t hrel hclo => ?_, fun hemp t ht => ?_, fun h hm => ?_⟩
  · rcases lt_or_le t (hrun initState ops).next with ht | ht
    · have := i1 t ht
      unfold tokCount at this
      omega
    · have := i2 t ht
      unfold tokCount at this
      omega
  · have hc1 : 1 ≤ (hrun initState ops).closed.count t := List.one_le_count_iff.mpr hclo
    have hr1 : 1 ≤ (hrun initState ops).released.count t := List.one_le_count_iff.mpr hrel
    rcases lt_or_le t (hrun initState ops).next with ht | ht
    · have := i1 t ht
      unfold tokCount at this
      omega
    · have := i2 t ht
      unfold tokCount at this
      omega
  · have := i1 t ht
    unfold tokCount at this
    rw [hemp] at this
    simp [countH] at this
    omega
  · simp only [hstep]
    exact hlookup_hset_self _ _ _ hm

/-- Witness for C9: the trace creates two descriptors, move-assigns one
handle over the other (closing the overwritten descriptor), releases the
surviving descriptor and destroys both handles: the first descriptor is
closed exactly once, the released one never. -/
theorem claim_C9_witness :
    (hrun initState
      [hop.mkFd 0, hop.mkFd 1, hop.moveAssign 0 1, hop.release 0,
        hop.destroy 0, hop.destroy 1]).closed.count 0 ≤ 1 :=
  (claim_C9 [hop.mkFd 0, hop.mkFd 1, hop.moveAssign 0 1, hop.release 0,
      hop.destroy 0, hop.destroy 1]
    (by simp [legalTrace, legalOp, hstep, initState, hkeys, hset, hlookup, herase])).1 0
